import Mathlib

/-!
Verification development for the BluePrismAnalyzer extraction engine.

The definitions below are a shallow embedding of the TypeScript source
(`server/routes.ts` in its latest revision, `server/storage.ts`, and the
client tree-building code).  xml2js parse results are modelled as typed
records: attribute values that may be absent are `Option String` (JS
truthiness of a string treats the empty string as falsy, which the helper
functions below reproduce); repeated child elements are `List`s.  The
insertion-ordered `Map<string, VBODependency>` used during extraction is
modelled as a list of entries in insertion order, with lookup by the `name`
key; `Map.get` followed by in-place mutation becomes "update the first
entry with that key", which agrees with `Map` semantics because keys are
unique.  Nodes on which the handler would throw a `TypeError` (a `stage`
or `resource` tag with no attribute object at all) are outside the model:
every modelled stage carries its attribute record, mirroring the code's
unconditional `stage.$` / `resource[0].$` accesses.
-/

namespace BPA

/-- JS truthiness of an optional string: defined and non-empty. -/
def truthyStr : Option String → Bool
  | none => false
  | some s => !(s == "")

/-- JS `a || b` for an optional string `a` with string default `b`
(the empty string is falsy and falls through to the default). -/
def jsOr (a : Option String) (b : String) : String :=
  match a with
  | some s => if s == "" then b else s
  | none => b

/-- Normalises an optional string to `none` when it is JS-falsy. -/
def jsVal : Option String → Option String
  | none => none
  | some s => if s == "" then none else some s

/-- Attribute record of a `<resource>` child of a stage
(`stage.resource[0].$` in the source): `object` and `action` attributes. -/
structure ResourceAttrs where
  object : Option String
  action : Option String
deriving Repr, DecidableEq

/-- A `<stage>` node as the dependency extractor sees it: the `name` and
`subsheetid` attributes of `stage.$`, and the list of `<resource>`
children (attribute records). -/
structure Stage where
  name : Option String
  subsheetid : Option String
  resource : List ResourceAttrs
deriving Repr, DecidableEq

/-- A `<subsheet>` node: its `subsheetid` attribute (`subsheet.$.subsheetid`)
and its first `<name>` child (`subsheet.name?.[0]`). -/
structure Subsheet where
  subsheetid : Option String
  name : Option String
deriving Repr, DecidableEq

/-- The parsed `<process>` root: `name` attribute, `stage` children and
`subsheet` children (`process.stage || []`, `process.subsheet || []`). -/
structure ProcessXml where
  name : Option String
  version : Option String
  stage : List Stage
  subsheet : List Subsheet
deriving Repr, DecidableEq

/-- `VBOAction` from the shared schema. -/
structure VBOAction where
  id : String
  name : String
  usageCount : Nat
  locations : List String
  description : String
deriving Repr, DecidableEq

/-- `VBODependency` from the shared schema. -/
structure VBODependency where
  id : String
  name : String
  usageCount : Nat
  locations : List String
  actions : List VBOAction
  description : String
deriving Repr, DecidableEq

/-- The fresh entry created by `vbos.set(vboKey, {...})` when a VBO name is
seen for the first time. -/
def newVBO (vboName : String) : VBODependency :=
  { id := vboName
    name := vboName
    usageCount := 0
    locations := []
    actions := []
    description := "Visual Business Object: " ++ vboName }

/-- The fresh action pushed when an action name is new within a VBO. -/
def newAction (actionName vboName location : String) : VBOAction :=
  { id := actionName ++ "-" ++ vboName
    name := actionName
    usageCount := 1
    locations := [location]
    description := "Action: " ++ actionName }

/-- `if (!xs.includes(l)) xs.push(l)` — add a location with set semantics. -/
def addLocation (locs : List String) (location : String) : List String :=
  if location ∈ locs then locs else locs ++ [location]

/-- `existingAction.usageCount++` and conditional location push. -/
def bumpAction (a : VBOAction) (location : String) : VBOAction :=
  { a with usageCount := a.usageCount + 1
           locations := addLocation a.locations location }

/-- Mutating the action found by `vbo.actions.find(a => a.name === actionName)`:
update the first entry with that name. -/
def updateFirstAction : List VBOAction → String → String → List VBOAction
  | [], _, _ => []
  | a :: as, actionName, location =>
    if a.name == actionName then bumpAction a location :: as
    else a :: updateFirstAction as actionName location

/-- The per-stage mutation of the looked-up VBO entry: increment its usage,
add the location, then create or update the matching action. -/
def bumpVBO (v : VBODependency) (vboName actionName location : String) : VBODependency :=
  let v1 := { v with usageCount := v.usageCount + 1
                     locations := addLocation v.locations location }
  if v1.actions.any (fun a => a.name == actionName) then
    { v1 with actions := updateFirstAction v1.actions actionName location }
  else
    { v1 with actions := v1.actions ++ [newAction actionName vboName location] }

/-- `Map.get(key)` followed by in-place mutation: update the first entry
whose `name` is the key (keys are unique, so this is the `Map` entry). -/
def updateFirstVBO : List VBODependency → String → (VBODependency → VBODependency) → List VBODependency
  | [], _, _ => []
  | v :: vs, key, f =>
    if v.name == key then f v :: vs else v :: updateFirstVBO vs key f

/-- One iteration of the `stages.forEach` loop in `extractFromStages`:
if the stage has a `<resource>` child whose `object` and `action`
attributes are both truthy, record the invocation. -/
def processStage (location : String) (vbos : List VBODependency) (stage : Stage) : List VBODependency :=
  match stage.resource with
  | [] => vbos
  | r :: _ =>
    match r.object, r.action with
    | some vboName, some actionName =>
      if vboName == "" || actionName == "" then vbos
      else
        let vbos1 :=
          if vbos.any (fun v => v.name == vboName) then vbos
          else vbos ++ [newVBO vboName]
        updateFirstVBO vbos1 vboName (fun v => bumpVBO v vboName actionName location)
    | _, _ => vbos

/-- `extractFromStages(stages, vbos, location)` from the source. -/
def extractFromStages (stages : List Stage) (vbos : List VBODependency) (location : String) : List VBODependency :=
  stages.foldl (processStage location) vbos

/-- `findStagesBySubsheet`: stages whose `subsheetid` attribute is strictly
equal to the given one (JS `===`; two absent attributes compare equal,
mirroring `undefined === undefined`). -/
def findStagesBySubsheet (stages : List Stage) (subsheetId : Option String) : List Stage :=
  stages.filter (fun st => st.subsheetid == subsheetId)

/-- `subsheet.name?.[0] || "Unknown Subsheet"`. -/
def subsheetLabel (s : Subsheet) : String :=
  jsOr s.name "Unknown Subsheet"

/-- `extractDependencies(process)`: scan all stages under "Main Process",
then for each subsheet scan its stages under the subsheet's name. -/
def extractDependencies (p : ProcessXml) : List VBODependency :=
  let stages := p.stage
  let subsheets := p.subsheet
  let vbos := extractFromStages stages [] "Main Process"
  subsheets.foldl
    (fun acc sub =>
      extractFromStages (findStagesBySubsheet stages sub.subsheetid) acc (subsheetLabel sub))
    vbos

/-- Case-sensitive substring test, the embedding of JS `String.includes`. -/
def containsSub (s pat : String) : Bool :=
  let l := s.toList
  let p := pat.toList
  (List.range (l.length + 1)).any (fun i => p.isPrefixOf (l.drop i))

/-- `extractVBOName(stageName)` from the source: a chain of case-sensitive
`includes` tests, first match wins, identity as fallback. -/
def extractVBOName (stageName : String) : String :=
  if containsSub stageName "Excel" then "MS Excel VBO"
  else if containsSub stageName "Email" then "Email - POP3/SMTP"
  else if containsSub stageName "Collection" then "Utility - Collection Manipulation"
  else if containsSub stageName "SAP" then "SAP Application Server"
  else if containsSub stageName "File" then "Utility - File Management"
  else if containsSub stageName "String" then "Utility - Strings"
  else if containsSub stageName "Environment" then "Utility - Environment"
  else if containsSub stageName "Math" then "Utility - Math"
  else if containsSub stageName "Date" then "Utility - Date and Time"
  else if containsSub stageName "Web" then "Web API"
  else if containsSub stageName "Database" then "Database"
  else stageName

/-- The ordered pattern list actually implemented by `extractVBOName`,
written as explicit (substring, canonical name) pairs. -/
def extractVBONamePatterns : List (String × String) :=
  [("Excel", "MS Excel VBO"),
   ("Email", "Email - POP3/SMTP"),
   ("Collection", "Utility - Collection Manipulation"),
   ("SAP", "SAP Application Server"),
   ("File", "Utility - File Management"),
   ("String", "Utility - Strings"),
   ("Environment", "Utility - Environment"),
   ("Math", "Utility - Math"),
   ("Date", "Utility - Date and Time"),
   ("Web", "Web API"),
   ("Database", "Database")]

/-- ASCII lowercasing, character by character (the patterns and the data
this code handles are ASCII, so this matches JS `toLowerCase` here). -/
def lowerAscii (s : String) : String :=
  String.mk (s.toList.map Char.toLower)

/-- Case-insensitive substring test: the embedding of the `/pat/i` regex
tests in `identifyVBOPatterns` (patterns are plain words). -/
def testPatternI (s pat : String) : Bool :=
  containsSub (lowerAscii s) (lowerAscii pat)

/-- Result record of `identifyVBOPatterns`. -/
structure VBOPatternResult where
  isVBO : Bool
  vboName : String
  actionName : String
deriving Repr, DecidableEq

/-- Whitespace class of the JS regexes used here (ASCII part of `\s`). -/
def jsIsSpace (c : Char) : Bool :=
  c == ' ' || c == '\t' || c == '\n' || c == '\r' || c == '\x0b' || c == '\x0c'

/-- `stageName.replace(/^\[.*?\]\s*/, "")`: strip one leading bracketed tag
(the non-greedy `.*?` does not cross a newline) and following whitespace;
if the regex does not match, return the string unchanged. -/
def stripBracketTag (s : String) : String :=
  match s.toList with
  | '[' :: rest =>
    let inside := rest.takeWhile (fun c => !(c == ']') && !(c == '\n'))
    match rest.drop inside.length with
    | ']' :: tail => String.mk (tail.dropWhile jsIsSpace)
    | _ => s
  | _ => s

/-- The ordered pattern table of `identifyVBOPatterns` in `storage.ts`
(case-insensitive; note there is no Environment entry). -/
def vboPatterns : List (String × String) :=
  [("excel", "MS Excel VBO"),
   ("email", "Email - POP3/SMTP"),
   ("collection", "Utility - Collection Manipulation"),
   ("file", "Utility - File Management"),
   ("string", "Utility - Strings"),
   ("date", "Utility - Date and Time"),
   ("math", "Utility - Math"),
   ("sap", "SAP Application Server"),
   ("web", "Web API"),
   ("database", "Database")]

/-- JS `String.trim` restricted to the ASCII whitespace the data uses. -/
def trimJS (s : String) : String :=
  String.mk (((s.toList.dropWhile jsIsSpace).reverse.dropWhile jsIsSpace).reverse)

/-- `identifyVBOPatterns(stageName)` from `storage.ts`: first matching
pattern wins (the `for` loop returns on the first test success). -/
def identifyVBOPatterns (stageName : String) : VBOPatternResult :=
  match vboPatterns.find? (fun pr => testPatternI stageName pr.1) with
  | some pr =>
    let stripped := trimJS (stripBracketTag stageName)
    let actionName := if stripped == "" then stageName else stripped
    { isVBO := true, vboName := pr.2, actionName := actionName }
  | none => { isVBO := false, vboName := "", actionName := stageName }

/-- Modelled from the spec: the name-pattern table in the documented order
(Excel, Email, Collection, File, String, Date, Math, Environment, SAP,
Web, Database), case-insensitive, first match wins.  Stated only to be
compared with the orders the source actually implements. -/
def specPatternList : List (String × String) :=
  [("Excel", "MS Excel VBO"),
   ("Email", "Email - POP3/SMTP"),
   ("Collection", "Utility - Collection Manipulation"),
   ("File", "Utility - File Management"),
   ("String", "Utility - Strings"),
   ("Date", "Utility - Date and Time"),
   ("Math", "Utility - Math"),
   ("Environment", "Utility - Environment"),
   ("SAP", "SAP Application Server"),
   ("Web", "Web API"),
   ("Database", "Database")]

/-- Modelled from the spec: the VBO name the documented pattern order
assigns to a stage name, if any pattern matches. -/
def specFirstMatchVBO (s : String) : Option String :=
  (specPatternList.find? (fun pr => testPatternI s pr.1)).map (fun pr => pr.2)

/-- Scenario B of the spec: one stage invoking
`Utility - Date and Time / Get Current Date` in each of two subsheets. -/
def scenarioB : ProcessXml :=
  { name := some "Scenario B"
    version := none
    stage :=
      [ { name := some "Get Date 1"
          subsheetid := some "sub-a"
          resource := [{ object := some "Utility - Date and Time", action := some "Get Current Date" }] }
      , { name := some "Get Date 2"
          subsheetid := some "sub-b"
          resource := [{ object := some "Utility - Date and Time", action := some "Get Current Date" }] } ]
    subsheet :=
      [ { subsheetid := some "sub-a", name := some "Sub One" }
      , { subsheetid := some "sub-b", name := some "Sub Two" } ] }

/-- Scenario A of the spec: a single stage named "Excel - Open Workbook"
with no resource descriptor. -/
def scenarioA : ProcessXml :=
  { name := some "Scenario A"
    version := none
    stage := [ { name := some "Excel - Open Workbook", subsheetid := none, resource := [] } ]
    subsheet := [] }

/-- Does a stage carry a resource descriptor with truthy object and action
(the condition under which `extractFromStages` records an invocation)? -/
def hasVBOResource (st : Stage) : Bool :=
  match st.resource with
  | [] => false
  | r :: _ => truthyStr r.object && truthyStr r.action

/-- The per-dependency invariant maintained by the extraction loop:
action names are unique, the usage count is the sum of the action usage
counts, and every location list is duplicate-free and no longer than the
corresponding usage count. -/
def VBOInv (v : VBODependency) : Prop :=
  (v.actions.map (fun a => a.name)).Nodup ∧
  v.usageCount = (v.actions.map (fun a => a.usageCount)).sum ∧
  v.locations.Nodup ∧
  v.locations.length ≤ v.usageCount ∧
  ∀ a ∈ v.actions, a.locations.Nodup ∧ a.locations.length ≤ a.usageCount

/-- The whole-map invariant: VBO names are unique and every entry
satisfies `VBOInv`. -/
def DepsInv (vs : List VBODependency) : Prop :=
  ((vs.map (fun v => v.name)).Nodup) ∧ ∀ v ∈ vs, VBOInv v

/-- The dependency produced on the Scenario B input, used as the concrete
instance for the invariant witnesses. -/
def depB : VBODependency :=
  { id := "Utility - Date and Time"
    name := "Utility - Date and Time"
    usageCount := 4
    locations := ["Main Process", "Sub One", "Sub Two"]
    actions := [{ id := "Get Current Date-Utility - Date and Time"
                  name := "Get Current Date"
                  usageCount := 4
                  locations := ["Main Process", "Sub One", "Sub Two"]
                  description := "Action: Get Current Date" }]
    description := "Visual Business Object: Utility - Date and Time" }

/-- The single action of `depB`. -/
def actB : VBOAction :=
  { id := "Get Current Date-Utility - Date and Time"
    name := "Get Current Date"
    usageCount := 4
    locations := ["Main Process", "Sub One", "Sub Two"]
    description := "Action: Get Current Date" }

/-- A parameter of an action definition (`{name, type, description}`). -/
structure Param where
  name : String
  type : String
  description : String
deriving Repr, DecidableEq

/-- `VBOActionDef` from the shared schema (as built by `extractVBOActions`;
absent input/output lists are omitted, not empty). -/
structure VBOActionDef where
  id : Option String
  name : Option String
  type : String
  description : Option String
  inputs : Option (List Param)
  outputs : Option (List Param)
deriving Repr, DecidableEq

/-- A stored attribute of an Application Modeller element
(datatype/value from the nested `ProcessValue`, `inuse === "True"`). -/
structure AttrVal where
  datatype : Option String
  value : Option String
  inuse : Bool
deriving Repr, DecidableEq

/-- `VBOElement` from the shared schema: one flat entry of the extracted
Application Modeller element list.  `attributes` is `none` when no
qualifying attribute was found (the source omits the field). -/
structure VBOElement where
  id : String
  name : String
  type : String
  parentId : Option String
  path : String
  attributes : Option (List (String × AttrVal))
deriving Repr, DecidableEq

/-- An `<object>` reference inside a release object-group; `id` models
`ref.$.id` (`none` also covers a reference with no attribute object). -/
structure ObjRef where
  id : Option String
deriving Repr, DecidableEq

/-- The `<members>` child of an object group. -/
structure MembersXml where
  object : List ObjRef
deriving Repr, DecidableEq

/-- An `<object-group>` entry of the release contents. -/
structure ObjectGroupXml where
  members : List MembersXml
deriving Repr, DecidableEq

/-- The attribute object of a release `<process>` item (`processItem.$`). -/
structure ProcItemAttrs where
  id : Option String
  name : Option String
deriving Repr, DecidableEq

/-- One `<process>` item of the release contents: its attribute object (if
any) and its embedded process definition (if any). -/
structure ProcessItemXml where
  attrs : Option ProcItemAttrs
  process : Option ProcessXml
deriving Repr, DecidableEq

/-- The `<bpr:contents>` node. -/
structure ContentsXml where
  process : List ProcessItemXml
  objectGroup : List ObjectGroupXml
deriving Repr, DecidableEq

/-- The parsed `<bpr:release>` root; the scalar children model
`releaseData['bpr:name']?.[0]` and friends. -/
structure ReleaseXml where
  name : Option String
  packageName : Option String
  created : Option String
  userCreatedBy : Option String
  releaseNotes : Option String
  contents : List ContentsXml
deriving Repr, DecidableEq

/-- `ReleaseProcess` from the shared schema. -/
structure ReleaseProcess where
  id : String
  name : String
  version : String
  totalStages : Nat
  subsheetCount : Nat
  dependencies : List VBODependency
deriving Repr, DecidableEq

/-- `ReleaseVBO` from the shared schema. -/
structure ReleaseVBO where
  id : String
  name : String
  version : String
  narrative : String
  actionCount : Nat
  elementCount : Nat
  actions : List VBOActionDef
  elements : List VBOElement
deriving Repr, DecidableEq

/-- The per-item mapping of the release handler's `processArray.map(...)`
followed by `.filter(Boolean)`: items with an embedded process and an
attribute object become `ReleaseProcess` summaries, others are dropped. -/
def releaseProcesses (items : List ProcessItemXml) : List ReleaseProcess :=
  items.filterMap (fun item =>
    match item.process, item.attrs with
    | some pc, some a =>
      some { id := jsOr a.id "unknown"
             name := jsOr a.name (jsOr pc.name "Unknown Process")
             version := jsOr pc.version "1.0"
             totalStages := pc.stage.length
             subsheetCount := pc.subsheet.length
             dependencies := extractDependencies pc }
    | _, _ => none)

/-- The stub entry pushed for a VBO that is only referenced by id. -/
def referencedVBOStub (refId : String) : ReleaseVBO :=
  { id := refId
    name := "Referenced VBO (not included in release)"
    version := "unknown"
    narrative := "VBO referenced by ID but definition not included in this release file"
    actionCount := 0
    elementCount := 0
    actions := []
    elements := [] }

/-- The object-group scan of the release handler: for each group, the
first `<members>` child's object references with a truthy id each yield
one stub `ReleaseVBO`. -/
def releaseVBOs (groups : List ObjectGroupXml) : List ReleaseVBO :=
  groups.foldl (fun acc group =>
    match group.members with
    | [] => acc
    | m :: _ =>
      acc ++ m.object.filterMap (fun ref =>
        if truthyStr ref.id then some (referencedVBOStub (ref.id.getD "")) else none)) []

/-- `ReleaseAnalysis` as assembled by the release handler (file metadata,
which comes from the upload layer rather than the XML, is omitted). -/
structure ReleaseAnalysisResult where
  releaseName : String
  packageName : String
  created : String
  createdBy : String
  processCount : Nat
  vboCount : Nat
  totalActionCount : Nat
  totalElementCount : Nat
  processes : List ReleaseProcess
  vbos : List ReleaseVBO
  releaseNotes : String
deriving Repr, DecidableEq

/-- `ProcessAnalysis` as assembled by the process handler (file metadata
omitted for the same reason). -/
structure ProcessAnalysisResult where
  processName : String
  totalStages : Nat
  vboCount : Nat
  actionCount : Nat
  subsheetCount : Nat
  dependencies : List VBODependency
deriving Repr, DecidableEq

/-- A successful xml2js parse: the top-level keys the handlers probe
(`result.process`, `result['bpr:release']`). -/
structure ParsedDoc where
  process : Option ProcessXml
  bprRelease : Option ReleaseXml
deriving Repr, DecidableEq

/-- The two terminal failures of an analysis request: the XML parser
rejected the input (surfaced through the catch-all handler), or the
document parsed but lacks the expected root key (surfaced as the
dedicated invalid-format response). -/
inductive HandlerError where
  | malformedXML (message : String)
  | invalidFormat (message : String)
deriving Repr, DecidableEq

/-- The `/api/analyze` handler from parse outcome to response: a parse
error is terminal, a missing `process` root is terminal with the
dedicated message, otherwise the analysis record is assembled. -/
def analyzeProcessFile : Except String ParsedDoc → Except HandlerError ProcessAnalysisResult
  | .error m => .error (.malformedXML m)
  | .ok doc =>
    match doc.process with
    | none => .error (.invalidFormat "Invalid .bpprocess file format")
    | some p =>
      let deps := extractDependencies p
      .ok { processName := jsOr p.name "Unknown Process"
            totalStages := p.stage.length
            vboCount := deps.length
            actionCount := (deps.map (fun v => v.actions.length)).sum
            subsheetCount := p.subsheet.length
            dependencies := deps }

/-- `releaseData['bpr:contents']?.[0] || {}`. -/
def emptyContents : ContentsXml :=
  { process := [], objectGroup := [] }

/-- The `/api/analyze-release` handler from parse outcome to response. -/
def analyzeReleaseFile : Except String ParsedDoc → Except HandlerError ReleaseAnalysisResult
  | .error m => .error (.malformedXML m)
  | .ok doc =>
    match doc.bprRelease with
    | none => .error (.invalidFormat "Invalid .bprelease file format")
    | some rel =>
      let contents := rel.contents.headD emptyContents
      let processes := releaseProcesses contents.process
      let vbos := releaseVBOs contents.objectGroup
      let totalActionCount :=
        (processes.map (fun p => (p.dependencies.map (fun dep => dep.actions.length)).sum)).sum +
        (vbos.map (fun v => v.actionCount)).sum
      let totalElementCount := (vbos.map (fun v => v.elementCount)).sum
      .ok { releaseName := jsOr rel.name "Unknown Release"
            packageName := jsOr rel.packageName "Unknown Package"
            created := jsOr rel.created ""
            createdBy := jsOr rel.userCreatedBy "Unknown"
            processCount := processes.length
            vboCount := vbos.length
            totalActionCount := totalActionCount
            totalElementCount := totalElementCount
            processes := processes
            vbos := vbos
            releaseNotes := jsOr rel.releaseNotes "" }

/-- The parsed document with neither expected root key. -/
def docNoRoots : ParsedDoc :=
  { process := none, bprRelease := none }

/-- A sample release document: one object group referencing one VBO by id,
no embedded processes. -/
def docRelease : ParsedDoc :=
  { process := none
    bprRelease := some
      { name := none
        packageName := none
        created := none
        userCreatedBy := none
        releaseNotes := none
        contents := [{ process := []
                       objectGroup := [{ members := [{ object := [{ id := some "vbo-1" }] }] }] }] } }

/-- The analysis record the release handler produces on `docRelease`. -/
def relSample : ReleaseAnalysisResult :=
  { releaseName := "Unknown Release"
    packageName := "Unknown Package"
    created := ""
    createdBy := "Unknown"
    processCount := 0
    vboCount := 1
    totalActionCount := 0
    totalElementCount := 0
    processes := []
    vbos := [referencedVBOStub "vbo-1"]
    releaseNotes := "" }

/-- The attribute record of a `ProcessValue` child node (`processValue.$`). -/
structure XAttrPV where
  datatype : Option String
  value : Option String
deriving Repr

/-- An `<attribute>` node of an element's `<attributes>` child: its `name`
and `inuse` attributes and its `ProcessValue` children. -/
structure XAttr where
  name : Option String
  inuse : Option String
  processValue : List XAttrPV
deriving Repr

mutual
/-- An `<element>` node of the Application Modeller tree, as xml2js
presents it: `$.name`, `$.type`, `id` children (text), `type` children
(text), `attributes` children (each carrying its `attribute` list),
nested `element` children and nested `group` children. -/
inductive XElem where
  | mk (name : Option String) (typeAttr : Option String) (idChild : List String)
       (typeChild : List String) (attributesNodes : List (List XAttr))
       (children : List XElem) (groups : List XGroup)

/-- A `<group>` node: `$.name`, `id` children and nested `element`
children (the source reads nothing else from a group). -/
inductive XGroup where
  | mk (name : Option String) (idChild : List String) (element : List XElem)
end

def XElem.name : XElem → Option String
  | .mk n _ _ _ _ _ _ => n

def XElem.typeAttr : XElem → Option String
  | .mk _ t _ _ _ _ _ => t

def XElem.idChild : XElem → List String
  | .mk _ _ i _ _ _ _ => i

def XElem.typeChild : XElem → List String
  | .mk _ _ _ t _ _ _ => t

def XElem.attributesNodes : XElem → List (List XAttr)
  | .mk _ _ _ _ a _ _ => a

def XElem.children : XElem → List XElem
  | .mk _ _ _ _ _ c _ => c

def XElem.groups : XElem → List XGroup
  | .mk _ _ _ _ _ _ g => g

def XGroup.name : XGroup → Option String
  | .mk n _ _ => n

def XGroup.idChild : XGroup → List String
  | .mk _ i _ => i

def XGroup.element : XGroup → List XElem
  | .mk _ _ e => e

/-- JS object-key assignment `attributes[attrName] = v`: overwrite in
place if the key exists, else append (keys stay unique). -/
def insertAttr (l : List (String × AttrVal)) (k : String) (v : AttrVal) : List (String × AttrVal) :=
  if l.any (fun kv => kv.1 == k) then l.map (fun kv => if kv.1 == k then (k, v) else kv)
  else l ++ [(k, v)]

/-- The attribute-collection loop: for the first `<attributes>` child,
every `<attribute>` with a truthy name and a present first `ProcessValue`
stores `{datatype, value, inuse === "True"}` under its name. -/
def buildAttrs (nodes : List (List XAttr)) : List (String × AttrVal) :=
  match nodes with
  | [] => []
  | attrs :: _ =>
    attrs.foldl (fun acc attr =>
      match attr.processValue with
      | [] => acc
      | pv :: _ =>
        match attr.name with
        | some an =>
          if an == "" then acc
          else insertAttr acc an { datatype := pv.datatype, value := pv.value, inuse := attr.inuse == some "True" }
        | none => acc) []

/-- `element.type?.[0] || element.$.type || "element"`. -/
def elemType (typeChild : List String) (typeAttr : Option String) : String :=
  match jsVal typeChild.head? with
  | some t => t
  | none => jsOr typeAttr "element"

mutual
/-- `extractElementsRecursive(elementArray, elements, parentPath, parentId)`
from the source; the mutated `elements` array is passed and returned. -/
def extractElementsRecursive : List XElem → List VBOElement → String → Option String → List VBOElement
  | [], acc, _, _ => acc
  | e :: rest, acc, parentPath, parentId =>
    extractElementsRecursive rest (processElement e acc parentPath parentId) parentPath parentId

/-- The body of the `elementArray.forEach` callback: a node with truthy
name and id is emitted and its children and groups are processed; any
other node is skipped together with its whole subtree. -/
def processElement : XElem → List VBOElement → String → Option String → List VBOElement
  | XElem.mk nm tyA idC tyC attrsN children groups, acc, parentPath, parentId =>
    match jsVal nm, jsVal idC.head? with
    | some name, some id =>
      let currentPath := if parentPath == "" then name else parentPath ++ " - " ++ name
      let attrs := buildAttrs attrsN
      let acc1 := acc ++ [{ id := id, name := name, type := elemType tyC tyA,
                            parentId := parentId, path := currentPath,
                            attributes := if attrs.length > 0 then some attrs else none }]
      let acc2 := extractElementsRecursive children acc1 currentPath (some id)
      processGroups groups acc2 currentPath id
    | _, _ => acc

/-- The `element.group.forEach` loop: a group with truthy name and id is
emitted with type "group" and its `element` children are recursed into
under the group's path and id; any other group is skipped entirely. -/
def processGroups : List XGroup → List VBOElement → String → String → List VBOElement
  | [], acc, _, _ => acc
  | XGroup.mk gnm gidC gelems :: rest, acc, currentPath, parentId =>
    let acc1 :=
      match jsVal gnm, jsVal gidC.head? with
      | some gname, some gid =>
        let groupPath := currentPath ++ " - " ++ gname
        let accg := acc ++ [{ id := gid, name := gname, type := "group",
                              parentId := some parentId, path := groupPath,
                              attributes := none }]
        extractElementsRecursive gelems accg groupPath (some gid)
      | _, _ => acc
    processGroups rest acc1 currentPath parentId
end

/-- An `<appdef>` node: its `element` children. -/
structure Appdef where
  element : List XElem

/-- `extractVBOElements(appdefArray)`: recurse from the first appdef's
elements with empty path and no parent. -/
def extractVBOElements (appdefArray : List Appdef) : List VBOElement :=
  match appdefArray with
  | [] => []
  | appdef :: _ => extractElementsRecursive appdef.element [] "" none

/-- An element node with no name attribute (children present would be
dropped with it). -/
def eNoName : XElem := XElem.mk none none ["id-9"] [] [] [] []

/-- A group node with a name but no id child. -/
def gNoId : XGroup := XGroup.mk (some "G") [] []

/-- A well-formed element node. -/
def eGood : XElem := XElem.mk (some "Window") none ["id-1"] [] [] [] []

/-- A well-formed group node. -/
def gGood : XGroup := XGroup.mk (some "Tab") ["id-2"] []

def hasElemId (es : List VBOElement) (p : String) : Bool :=
  es.any (fun e => e.id == p)

def linkStep (es : List VBOElement) (st : List String × (String → List String)) (e : VBOElement) :
    List String × (String → List String) :=
  match e.parentId with
  | some p =>
    if p == "" then (st.1 ++ [e.id], st.2)
    else if hasElemId es p then (st.1, fun i => if i == p then st.2 i ++ [e.id] else st.2 i)
    else st
  | none => (st.1 ++ [e.id], st.2)

def buildLink (es : List VBOElement) : List String × (String → List String) :=
  es.foldl (linkStep es) ([], fun _ => [])

def dfsNode (ch : String → List String) : Nat → String → List String
  | 0, i => [i]
  | n + 1, i => i :: ((ch i).map (dfsNode ch n)).flatten

def flattenTree (es : List VBOElement) : List String :=
  ((buildLink es).1.map (dfsNode (buildLink es).2 es.length)).flatten

def esDangling : List VBOElement :=
  [{ id := "1", name := "E", type := "element", parentId := some "x", path := "E", attributes := none }]

def parentOf (es : List VBOElement) (t : String) : Option String :=
  match es.find? (fun e => e.id == t) with
  | none => none
  | some e => jsVal e.parentId

def iterPar (es : List VBOElement) : Nat → String → Option String
  | 0, t => some t
  | k + 1, t =>
    match parentOf es t with
    | some p => iterPar es k p
    | none => none

/-- Well-formedness: every parent reference is non-empty and points at an
id present in the list. -/
def ParentsClosed (es : List VBOElement) : Prop :=
  ∀ e ∈ es, ∀ p, e.parentId = some p → p ≠ "" ∧ p ∈ es.map (fun e => e.id)

/-- Acyclicity: a rank function strictly decreases from child to parent. -/
def RankedParents (es : List VBOElement) (rank : String → Nat) : Prop :=
  ∀ e ∈ es, ∀ p, e.parentId = some p → rank p < rank e.id

def childrenOf (es : List VBOElement) (i : String) : List String :=
  (buildLink es).2 i

def elemRoot : VBOElement :=
  { id := "1", name := "Root", type := "element", parentId := none, path := "Root", attributes := none }

def elemChild : VBOElement :=
  { id := "2", name := "Child", type := "element", parentId := some "1", path := "Root - Child", attributes := none }

def esD : List VBOElement := [elemRoot, elemChild]

def esDRev : List VBOElement := [elemChild, elemRoot]

def rankD : String → Nat := fun s => if s == "1" then 0 else 1

theorem processStage_no_resource (location : String) (vbos : List VBODependency)
    (st : Stage) (h : hasVBOResource st = false) :
    processStage location vbos st = vbos := by
  unfold processStage
  unfold hasVBOResource at h
  match hst : st.resource with
  | [] => simp
  | r :: rs =>
    rw [hst] at h
    match ho : r.object, ha : r.action with
    | none, none => simp [ho, ha]
    | none, some a => simp [ho, ha]
    | some o, none => simp [ho, ha]
    | some o, some a =>
      dsimp only at h ⊢
      rw [ho, ha] at h
      simp only [truthyStr, Bool.and_eq_false_iff, Bool.not_eq_false'] at h
      simp only [ho, ha]
      rw [if_pos]
      rcases h with h | h <;> simp [h]

theorem extractFromStages_no_resource (stages : List Stage)
    (h : ∀ st ∈ stages, hasVBOResource st = false)
    (vbos : List VBODependency) (location : String) :
    extractFromStages stages vbos location = vbos := by
  induction stages generalizing vbos with
  | nil => rfl
  | cons hd tl ih =>
    unfold extractFromStages at *
    simp only [List.foldl_cons]
    rw [processStage_no_resource location vbos hd (h hd (by simp))]
    exact ih (fun st hst => h st (by simp [hst])) vbos

/-- Claim C1: evaluation of `extractDependencies` on the Scenario B input.
The claim predicts `usageCount = 2` and `locations` equal to the two
subsheet names only; the code scans every stage once under "Main Process"
and a second time under its owning subsheet, so it yields `usageCount = 4`
with "Main Process" in `locations`, and the single action also has
`usageCount = 4`. -/
theorem c1_code_behavior :
    extractDependencies scenarioB =
      [{ id := "Utility - Date and Time"
         name := "Utility - Date and Time"
         usageCount := 4
         locations := ["Main Process", "Sub One", "Sub Two"]
         actions := [{ id := "Get Current Date-Utility - Date and Time"
                       name := "Get Current Date"
                       usageCount := 4
                       locations := ["Main Process", "Sub One", "Sub Two"]
                       description := "Action: Get Current Date" }]
         description := "Visual Business Object: Utility - Date and Time" }] := by
  decide

/-- Claim C2, counterexample: on the Scenario A input (one stage named
"Excel - Open Workbook", no resource descriptor) `extractDependencies`
returns the empty list, not the claimed singleton "MS Excel VBO"
dependency — the name-pattern fallback is never invoked by the
extraction path. -/
theorem c2_counterexample :
    extractDependencies scenarioA = [] := by
  decide

/-- Claim C2, amended: a stage without a resource descriptor carrying
truthy `object` and `action` fields contributes no dependency at all, so
a process whose stages all lack such descriptors yields an empty
dependency list; the pattern table exists (`extractVBOName` does map
"Excel - Open Workbook" to "MS Excel VBO") but dependency extraction
never consults it. -/
theorem c2_amended (p : ProcessXml) (h : ∀ st ∈ p.stage, hasVBOResource st = false) :
    extractDependencies p = [] ∧ extractVBOName "Excel - Open Workbook" = "MS Excel VBO" := by
  constructor
  · unfold extractDependencies
    dsimp only
    rw [extractFromStages_no_resource p.stage h [] "Main Process"]
    induction p.subsheet with
    | nil => rfl
    | cons hd tl ih =>
      simp only [List.foldl_cons]
      rw [extractFromStages_no_resource (findStagesBySubsheet p.stage hd.subsheetid)
        (fun st hst => h st (List.mem_of_mem_filter hst)) [] (subsheetLabel hd)]
      exact ih
  · decide

/-- Claim C2, amended, witness at Scenario A. -/
theorem c2_amended_witness :
    extractDependencies scenarioA = [] ∧
      extractVBOName "Excel - Open Workbook" = "MS Excel VBO" :=
  c2_amended scenarioA (by decide)

/-- Claim C3, counterexample: on "SAP File" the documented pattern order
(File before SAP) yields "Utility - File Management", but `extractVBOName`
checks SAP before File and yields "SAP Application Server"; and on
"Environment Database" the documented order yields "Utility - Environment"
while `identifyVBOPatterns` has no Environment pattern and yields
"Database".  Both implementations therefore disagree with the documented
order on names matching more than one pattern. -/
theorem c3_counterexample :
    extractVBOName "SAP File" = "SAP Application Server" ∧
    specFirstMatchVBO "SAP File" = some "Utility - File Management" ∧
    extractVBOName "SAP File" ≠ "Utility - File Management" ∧
    (identifyVBOPatterns "Environment Database").vboName = "Database" ∧
    specFirstMatchVBO "Environment Database" = some "Utility - Environment" := by
  decide

/-- Claim C3, amended: first-match-wins holds, but in the orders the code
actually implements: `extractVBOName` equals the first match of the
ordered table Excel, Email, Collection, SAP, File, String, Environment,
Math, Date, Web, Database (case-sensitive substring tests, identity
fallback); the example still holds — "Excel Database Export" maps to
"MS Excel VBO" under both `extractVBOName` and `identifyVBOPatterns`,
never to "Database". -/
theorem c3_amended :
    (∀ s, extractVBOName s =
      ((extractVBONamePatterns.find? (fun pr => containsSub s pr.1)).map (fun pr => pr.2)).getD s) ∧
    extractVBOName "Excel Database Export" = "MS Excel VBO" ∧
    (identifyVBOPatterns "Excel Database Export").vboName = "MS Excel VBO" := by
  refine ⟨fun s => ?_, by decide, by decide⟩
  unfold extractVBOName extractVBONamePatterns
  simp only [List.find?]
  by_cases h1 : containsSub s "Excel" = true
  · simp [h1]
  by_cases h2 : containsSub s "Email" = true
  · simp [h1, h2]
  by_cases h3 : containsSub s "Collection" = true
  · simp [h1, h2, h3]
  by_cases h4 : containsSub s "SAP" = true
  · simp [h1, h2, h3, h4]
  by_cases h5 : containsSub s "File" = true
  · simp [h1, h2, h3, h4, h5]
  by_cases h6 : containsSub s "String" = true
  · simp [h1, h2, h3, h4, h5, h6]
  by_cases h7 : containsSub s "Environment" = true
  · simp [h1, h2, h3, h4, h5, h6, h7]
  by_cases h8 : containsSub s "Math" = true
  · simp [h1, h2, h3, h4, h5, h6, h7, h8]
  by_cases h9 : containsSub s "Date" = true
  · simp [h1, h2, h3, h4, h5, h6, h7, h8, h9]
  by_cases h10 : containsSub s "Web" = true
  · simp [h1, h2, h3, h4, h5, h6, h7, h8, h9, h10]
  by_cases h11 : containsSub s "Database" = true
  · simp [h1, h2, h3, h4, h5, h6, h7, h8, h9, h10, h11]
  simp [h1, h2, h3, h4, h5, h6, h7, h8, h9, h10, h11]

theorem addLocation_nodup {locs : List String} {l : String} (h : locs.Nodup) :
    (addLocation locs l).Nodup := by
  unfold addLocation
  split
  · exact h
  · next hmem => simpa [List.nodup_append] using ⟨h, hmem⟩

theorem addLocation_length_le (locs : List String) (l : String) :
    (addLocation locs l).length ≤ locs.length + 1 := by
  unfold addLocation
  split <;> simp

theorem updateFirstAction_map_name (as : List VBOAction) (an loc : String) :
    (updateFirstAction as an loc).map (fun a => a.name) = as.map (fun a => a.name) := by
  induction as with
  | nil => rfl
  | cons a tl ih =>
    unfold updateFirstAction
    split
    · simp [bumpAction]
    · simp [ih]

theorem updateFirstAction_sum (as : List VBOAction) (an loc : String)
    (h : as.any (fun a => a.name == an) = true) :
    ((updateFirstAction as an loc).map (fun a => a.usageCount)).sum =
      (as.map (fun a => a.usageCount)).sum + 1 := by
  induction as with
  | nil => simp at h
  | cons a tl ih =>
    unfold updateFirstAction
    split
    · simp [bumpAction]
      omega
    · next hne =>
      simp only [List.any_cons, Bool.or_eq_true] at h
      rcases h with h | h
      · exact absurd h hne
      · simp only [List.map_cons, List.sum_cons, ih h]
        omega

theorem updateFirstAction_mem {as : List VBOAction} {an loc : String} {b : VBOAction}
    (h : b ∈ updateFirstAction as an loc) :
    b ∈ as ∨ ∃ a ∈ as, b = bumpAction a loc := by
  induction as with
  | nil => simp [updateFirstAction] at h
  | cons a tl ih =>
    unfold updateFirstAction at h
    split at h
    · rcases List.mem_cons.mp h with h | h
      · exact Or.inr ⟨a, by simp, h⟩
      · exact Or.inl (List.mem_cons_of_mem a h)
    · rcases List.mem_cons.mp h with h | h
      · exact Or.inl (by simp [h])
      · rcases ih h with h | ⟨x, hx, hb⟩
        · exact Or.inl (List.mem_cons_of_mem a h)
        · exact Or.inr ⟨x, List.mem_cons_of_mem a hx, hb⟩

theorem updateFirstVBO_map_name (vs : List VBODependency) (k : String)
    (f : VBODependency → VBODependency) (hf : ∀ v, (f v).name = v.name) :
    (updateFirstVBO vs k f).map (fun v => v.name) = vs.map (fun v => v.name) := by
  induction vs with
  | nil => rfl
  | cons v tl ih =>
    unfold updateFirstVBO
    split
    · simp [hf]
    · simp [ih]

theorem updateFirstVBO_mem {vs : List VBODependency} {k : String}
    {f : VBODependency → VBODependency} {w : VBODependency}
    (h : w ∈ updateFirstVBO vs k f) :
    w ∈ vs ∨ ∃ v ∈ vs, w = f v := by
  induction vs with
  | nil => simp [updateFirstVBO] at h
  | cons v tl ih =>
    unfold updateFirstVBO at h
    split at h
    · rcases List.mem_cons.mp h with h | h
      · exact Or.inr ⟨v, by simp, h⟩
      · exact Or.inl (List.mem_cons_of_mem v h)
    · rcases List.mem_cons.mp h with h | h
      · exact Or.inl (by simp [h])
      · rcases ih h with h | ⟨x, hx, hw⟩
        · exact Or.inl (List.mem_cons_of_mem v h)
        · exact Or.inr ⟨x, List.mem_cons_of_mem v hx, hw⟩

theorem bumpVBO_name (v : VBODependency) (vn an loc : String) :
    (bumpVBO v vn an loc).name = v.name := by
  unfold bumpVBO
  dsimp only
  split <;> rfl

theorem bumpVBO_inv {v : VBODependency} (vn an loc : String) (h : VBOInv v) :
    VBOInv (bumpVBO v vn an loc) := by
  obtain ⟨hnames, hsum, hlnd, hlle, hacts⟩ := h
  unfold bumpVBO
  dsimp only
  split
  · next hany =>
    refine ⟨?_, ?_, ?_, ?_, ?_⟩
    · simpa [updateFirstAction_map_name] using hnames
    · simp only [updateFirstAction_sum _ _ _ hany]
      omega
    · exact addLocation_nodup hlnd
    · calc (addLocation v.locations loc).length
          ≤ v.locations.length + 1 := addLocation_length_le _ _
        _ ≤ v.usageCount + 1 := by omega
    · intro a ha
      rcases updateFirstAction_mem ha with ha | ⟨b, hb, rfl⟩
      · exact hacts a ha
      · obtain ⟨hbnd, hble⟩ := hacts b hb
        refine ⟨addLocation_nodup hbnd, ?_⟩
        calc (addLocation b.locations loc).length
            ≤ b.locations.length + 1 := addLocation_length_le _ _
          _ ≤ b.usageCount + 1 := by omega
  · next hany =>
    have hnot : an ∉ v.actions.map (fun a => a.name) := by
      intro hmem
      simp only [List.any_eq_true, beq_iff_eq] at hany
      rcases List.mem_map.mp hmem with ⟨a, ha, hname⟩
      exact hany ⟨a, ha, hname⟩
    refine ⟨?_, ?_, ?_, ?_, ?_⟩
    · simp only [List.map_append, newAction, List.map_cons, List.map_nil]
      rw [List.nodup_append]
      refine ⟨hnames, List.nodup_singleton _, ?_⟩
      intro x hx hxa
      simp only [List.mem_singleton] at hxa
      subst hxa
      exact hnot hx
    · simp [newAction, hsum]
    · exact addLocation_nodup hlnd
    · calc (addLocation v.locations loc).length
          ≤ v.locations.length + 1 := addLocation_length_le _ _
        _ ≤ v.usageCount + 1 := by omega
    · intro a ha
      rcases List.mem_append.mp ha with ha | ha
      · exact hacts a ha
      · simp only [List.mem_singleton] at ha
        subst ha
        simp [newAction]

theorem newVBO_inv (vn : String) : VBOInv (newVBO vn) := by
  refine ⟨by simp [newVBO], by simp [newVBO], by simp [newVBO], by simp [newVBO], ?_⟩
  intro a ha
  simp [newVBO] at ha

theorem processStage_inv (loc : String) {vs : List VBODependency} (st : Stage)
    (h : DepsInv vs) : DepsInv (processStage loc vs st) := by
  unfold processStage
  match hst : st.resource with
  | [] => exact h
  | r :: rs =>
    dsimp only
    match ho : r.object, ha : r.action with
    | none, none => exact h
    | none, some a => exact h
    | some o, none => exact h
    | some o, some a =>
      dsimp only
      split
      · exact h
      · obtain ⟨hnd, hall⟩ := h
        have h1 : DepsInv (if vs.any (fun v => v.name == o) = true then vs
            else vs ++ [newVBO o]) := by
          split
          · exact ⟨hnd, hall⟩
          · next hany =>
            constructor
            · simp only [List.map_append, newVBO, List.map_cons, List.map_nil]
              rw [List.nodup_append]
              refine ⟨hnd, List.nodup_singleton _, ?_⟩
              intro x hx hxo
              simp only [List.mem_singleton] at hxo
              subst hxo
              simp only [List.any_eq_true, beq_iff_eq] at hany
              rcases List.mem_map.mp hx with ⟨v, hv, hname⟩
              exact hany ⟨v, hv, hname⟩
            · intro v hv
              rcases List.mem_append.mp hv with hv | hv
              · exact hall v hv
              · simp only [List.mem_singleton] at hv
                subst hv
                exact newVBO_inv o
        obtain ⟨h1nd, h1all⟩ := h1
        constructor
        · rw [updateFirstVBO_map_name _ _ _ (fun v => bumpVBO_name v o a loc)]
          exact h1nd
        · intro w hw
          rcases updateFirstVBO_mem hw with hw | ⟨v, hv, rfl⟩
          · exact h1all w hw
          · exact bumpVBO_inv o a loc (h1all v hv)

theorem extractFromStages_inv (stages : List Stage) {vs : List VBODependency}
    (loc : String) (h : DepsInv vs) :
    DepsInv (extractFromStages stages vs loc) := by
  induction stages generalizing vs with
  | nil => exact h
  | cons hd tl ih =>
    unfold extractFromStages at *
    simp only [List.foldl_cons]
    exact ih (processStage_inv loc hd h)

theorem depsInv_extractDependencies (p : ProcessXml) :
    DepsInv (extractDependencies p) := by
  unfold extractDependencies
  dsimp only
  have h0 : DepsInv (extractFromStages p.stage [] "Main Process") :=
    extractFromStages_inv p.stage "Main Process" ⟨List.nodup_nil, by intro v hv; simp at hv⟩
  generalize extractFromStages p.stage [] "Main Process" = vbos at h0
  induction p.subsheet generalizing vbos with
  | nil => exact h0
  | cons hd tl ih =>
    simp only [List.foldl_cons]
    exact ih _ (extractFromStages_inv _ _ h0)

/-- Claim C4: the dependency list returned by `extractDependencies` never
contains two entries with the same VBO name, and within any returned
dependency the actions list never contains two entries with the same
action name. -/
theorem c4_dedup (p : ProcessXml) (v : VBODependency)
    (hv : v ∈ extractDependencies p) :
    ((extractDependencies p).map (fun v => v.name)).Nodup ∧
    (v.actions.map (fun a => a.name)).Nodup := by
  obtain ⟨hnd, hall⟩ := depsInv_extractDependencies p
  exact ⟨hnd, (hall v hv).1⟩

/-- Claim C4, witness at the Scenario B input. -/
theorem c4_dedup_witness :
    ((extractDependencies scenarioB).map (fun v => v.name)).Nodup ∧
    (depB.actions.map (fun a => a.name)).Nodup :=
  c4_dedup scenarioB depB (by decide)

/-- Claim C5: for every dependency returned by `extractDependencies`, the
usage count equals the sum of its actions' usage counts (each recognized
stage visit increments the VBO count and exactly one action count). -/
theorem c5_usage_sum (p : ProcessXml) (v : VBODependency)
    (hv : v ∈ extractDependencies p) :
    v.usageCount = (v.actions.map (fun a => a.usageCount)).sum :=
  ((depsInv_extractDependencies p).2 v hv).2.1

/-- Claim C5, witness at the Scenario B input. -/
theorem c5_usage_sum_witness :
    depB.usageCount = (depB.actions.map (fun a => a.usageCount)).sum :=
  c5_usage_sum scenarioB depB (by decide)

/-- Claim C6: for every dependency returned by `extractDependencies` and
every action inside it, the locations list is duplicate-free and its
length is at most the corresponding usage count. -/
theorem c6_locations (p : ProcessXml) (v : VBODependency)
    (hv : v ∈ extractDependencies p) (a : VBOAction) (ha : a ∈ v.actions) :
    v.locations.Nodup ∧ v.locations.length ≤ v.usageCount ∧
    a.locations.Nodup ∧ a.locations.length ≤ a.usageCount := by
  obtain ⟨-, hsum, hlnd, hlle, hacts⟩ := (depsInv_extractDependencies p).2 v hv
  obtain ⟨hand, hale⟩ := hacts a ha
  exact ⟨hlnd, hlle, hand, hale⟩

/-- Claim C6, witness at the Scenario B input. -/
theorem c6_locations_witness :
    depB.locations.Nodup ∧ depB.locations.length ≤ depB.usageCount ∧
    actB.locations.Nodup ∧ actB.locations.length ≤ actB.usageCount :=
  c6_locations scenarioB depB (by decide) actB (by decide)

/-- Claim C9: a well-formed parse missing the expected root key is
rejected with the dedicated invalid-format error and no analysis record;
a parse failure is rejected with the malformed-XML error and no analysis
record; and the two error kinds are distinguishable. -/
theorem c9_format_errors (doc : ParsedDoc) (msg : String)
    (hp : doc.process = none) (hr : doc.bprRelease = none) :
    analyzeProcessFile (.ok doc) = .error (.invalidFormat "Invalid .bpprocess file format") ∧
    analyzeReleaseFile (.ok doc) = .error (.invalidFormat "Invalid .bprelease file format") ∧
    analyzeProcessFile (.error msg) = .error (.malformedXML msg) ∧
    analyzeReleaseFile (.error msg) = .error (.malformedXML msg) ∧
    (∀ m m', HandlerError.invalidFormat m ≠ HandlerError.malformedXML m') := by
  refine ⟨?_, ?_, rfl, rfl, ?_⟩
  · unfold analyzeProcessFile
    dsimp only
    rw [hp]
  · unfold analyzeReleaseFile
    dsimp only
    rw [hr]
  · intro m m' h
    exact HandlerError.noConfusion h

/-- Claim C9, witness at a document with neither root key and a sample
parser message. -/
theorem c9_format_errors_witness :
    analyzeProcessFile (.ok docNoRoots) = .error (.invalidFormat "Invalid .bpprocess file format") ∧
    analyzeReleaseFile (.ok docNoRoots) = .error (.invalidFormat "Invalid .bprelease file format") ∧
    analyzeProcessFile (.error "Unexpected end of input") = .error (.malformedXML "Unexpected end of input") ∧
    analyzeReleaseFile (.error "Unexpected end of input") = .error (.malformedXML "Unexpected end of input") :=
  ⟨(c9_format_errors docNoRoots "Unexpected end of input" rfl rfl).1,
   (c9_format_errors docNoRoots "Unexpected end of input" rfl rfl).2.1,
   (c9_format_errors docNoRoots "Unexpected end of input" rfl rfl).2.2.1,
   (c9_format_errors docNoRoots "Unexpected end of input" rfl rfl).2.2.2.1⟩

theorem releaseVBOs_elementCount {groups : List ObjectGroupXml} {v : ReleaseVBO}
    (hv : v ∈ releaseVBOs groups) : v.elementCount = 0 ∧ v.elements = [] := by
  unfold releaseVBOs at hv
  have aux : ∀ (gs : List ObjectGroupXml) (acc : List ReleaseVBO),
      (∀ w ∈ acc, w.elementCount = 0 ∧ w.elements = []) →
      ∀ w ∈ gs.foldl (fun acc group =>
        match group.members with
        | [] => acc
        | m :: _ =>
          acc ++ m.object.filterMap (fun ref =>
            if truthyStr ref.id then some (referencedVBOStub (ref.id.getD "")) else none)) acc,
      w.elementCount = 0 ∧ w.elements = [] := by
    intro gs
    induction gs with
    | nil => intro acc hacc w hw; exact hacc w hw
    | cons g tl ih =>
      intro acc hacc w hw
      simp only [List.foldl_cons] at hw
      refine ih _ ?_ w hw
      match g.members with
      | [] => exact hacc
      | m :: _ =>
        intro x hx
        rcases List.mem_append.mp hx with hx | hx
        · exact hacc x hx
        · rcases List.mem_filterMap.mp hx with ⟨ref, -, href⟩
          split at href
          · cases href
            exact ⟨rfl, rfl⟩
          · cases href
  exact aux groups [] (by intro w hw; simp at hw) v hv

/-- Claim C10: every accepted release analysis has `totalElementCount = 0`:
the handler only ever constructs reference-stub VBO entries with
`elementCount = 0` and empty element lists, embedded processes contribute
nothing to the element total, and the total is the sum of the stub
counts. -/
theorem c10_total_elements (parsed : Except String ParsedDoc)
    (rel : ReleaseAnalysisResult) (h : analyzeReleaseFile parsed = .ok rel) :
    rel.totalElementCount = 0 ∧ ∀ v ∈ rel.vbos, v.elementCount = 0 ∧ v.elements = [] := by
  match parsed with
  | .error m => simp [analyzeReleaseFile] at h
  | .ok doc =>
    unfold analyzeReleaseFile at h
    dsimp only at h
    match hrel : doc.bprRelease with
    | none => rw [hrel] at h; cases h
    | some relXml =>
      rw [hrel] at h
      dsimp only at h
      cases h
      constructor
      · refine List.sum_eq_zero ?_
        intro x hx
        rcases List.mem_map.mp hx with ⟨v, hv, rfl⟩
        exact (releaseVBOs_elementCount hv).1
      · intro v hv
        exact releaseVBOs_elementCount hv

/-- Claim C10, witness at the sample release document. -/
theorem c10_total_elements_witness :
    analyzeReleaseFile (.ok docRelease) = .ok relSample ∧ relSample.totalElementCount = 0 :=
  ⟨by rfl, (c10_total_elements (.ok docRelease) relSample (by rfl)).1⟩

theorem extends_chain {acc1 res1 res2 acc : List VBOElement} {x : VBOElement}
    (h1 : ∃ t, res1 = acc1 ++ t) (h2 : ∃ t, res2 = res1 ++ t) (h0 : acc1 = acc ++ [x]) :
    ∃ t, res2 = acc ++ t := by
  obtain ⟨t1, rfl⟩ := h1
  obtain ⟨t2, rfl⟩ := h2
  subst h0
  exact ⟨[x] ++ t1 ++ t2, by simp⟩

mutual
theorem extractER_extends (l : List XElem) (acc : List VBOElement) (pp : String) (pid : Option String) :
    ∃ t, extractElementsRecursive l acc pp pid = acc ++ t :=
  match l with
  | [] => ⟨[], (List.append_nil acc).symm⟩
  | e :: rest => by
    obtain ⟨t1, h1⟩ := processElement_extends e acc pp pid
    obtain ⟨t2, h2⟩ := extractER_extends rest (processElement e acc pp pid) pp pid
    refine ⟨t1 ++ t2, ?_⟩
    rw [extractElementsRecursive, h2, h1, List.append_assoc]

theorem processElement_extends (e : XElem) (acc : List VBOElement) (pp : String) (pid : Option String) :
    ∃ t, processElement e acc pp pid = acc ++ t :=
  match e with
  | XElem.mk nm tyA idC tyC attrsN children groups => by
    rw [processElement]
    match jsVal nm, jsVal idC.head? with
    | some name, some id =>
      dsimp only
      exact extends_chain (extractER_extends children _ _ _) (processGroups_extends groups _ _ _) rfl
    | some name, none => exact ⟨[], (List.append_nil acc).symm⟩
    | none, some i => exact ⟨[], (List.append_nil acc).symm⟩
    | none, none => exact ⟨[], (List.append_nil acc).symm⟩

theorem processGroups_extends (gs : List XGroup) (acc : List VBOElement) (cp : String) (pid : String) :
    ∃ t, processGroups gs acc cp pid = acc ++ t :=
  match gs with
  | [] => ⟨[], (List.append_nil acc).symm⟩
  | XGroup.mk gnm gidC gelems :: rest => by
    rw [processGroups]
    match jsVal gnm, jsVal gidC.head? with
    | some gname, some gid =>
      dsimp only
      exact extends_chain (extractER_extends gelems _ _ _) (processGroups_extends rest _ _ _) rfl
    | some gname, none => exact processGroups_extends rest acc cp pid
    | none, some g => exact processGroups_extends rest acc cp pid
    | none, none => exact processGroups_extends rest acc cp pid
end

theorem extends_chain_cons {acc1 res1 res2 acc : List VBOElement} {x : VBOElement}
    (h1 : ∃ t, res1 = acc1 ++ t) (h2 : ∃ t, res2 = res1 ++ t) (h0 : acc1 = acc ++ [x]) :
    ∃ t, res2 = acc ++ (x :: t) := by
  obtain ⟨t1, rfl⟩ := h1
  obtain ⟨t2, rfl⟩ := h2
  subst h0
  exact ⟨t1 ++ t2, by simp⟩

theorem take_append_cons (acc t : List VBOElement) (x : VBOElement) :
    (acc ++ (x :: t)).take (acc.length + 1) = acc ++ [x] := by
  simp [List.take_append_eq_append_take]

/-- Claim C8: an element or group node whose name or id is missing (or
empty) contributes no `VBOElement` and its whole subtree is skipped (the
accumulator is returned unchanged, so nothing beneath it is processed);
conversely a node with both name and id is emitted immediately after the
accumulator, with `path` equal to the parent path joined to its own name
by " - " (just the name at the root), groups always joining with " - ". -/
theorem c8_skip_and_emit :
    (∀ (e : XElem) (acc : List VBOElement) (pp : String) (pid : Option String),
       jsVal e.name = none ∨ jsVal e.idChild.head? = none →
       processElement e acc pp pid = acc) ∧
    (∀ (g : XGroup) (rest : List XGroup) (acc : List VBOElement) (cp pid : String),
       jsVal g.name = none ∨ jsVal g.idChild.head? = none →
       processGroups (g :: rest) acc cp pid = processGroups rest acc cp pid) ∧
    (∀ (e : XElem) (acc : List VBOElement) (pp : String) (pid : Option String) (nm id : String),
       jsVal e.name = some nm → jsVal e.idChild.head? = some id →
       (processElement e acc pp pid).take (acc.length + 1) =
         acc ++ [{ id := id, name := nm, type := elemType e.typeChild e.typeAttr,
                   parentId := pid, path := if pp == "" then nm else pp ++ " - " ++ nm,
                   attributes := if (buildAttrs e.attributesNodes).length > 0
                                 then some (buildAttrs e.attributesNodes) else none }]) ∧
    (∀ (g : XGroup) (rest : List XGroup) (acc : List VBOElement) (cp pid gnm gid : String),
       jsVal g.name = some gnm → jsVal g.idChild.head? = some gid →
       (processGroups (g :: rest) acc cp pid).take (acc.length + 1) =
         acc ++ [{ id := gid, name := gnm, type := "group", parentId := some pid,
                   path := cp ++ " - " ++ gnm, attributes := none }]) := by
  refine ⟨?_, ?_, ?_, ?_⟩
  · intro e acc pp pid h
    cases e with
    | mk nm tyA idC tyC attrsN children groups =>
      simp only [XElem.name, XElem.idChild] at h
      rw [processElement]
      rcases h with h | h
      · cases hid : jsVal idC.head? <;> rw [h]
      · cases hnm : jsVal nm <;> rw [h]
  · intro g rest acc cp pid h
    cases g with
    | mk gnm gidC gelems =>
      simp only [XGroup.name, XGroup.idChild] at h
      rw [processGroups]
      rcases h with h | h
      · cases hid : jsVal gidC.head? <;> rw [h]
      · cases hnm : jsVal gnm <;> rw [h]
  · intro e acc pp pid nm id hnm hid
    cases e with
    | mk nm' tyA idC tyC attrsN children groups =>
      simp only [XElem.name, XElem.idChild] at hnm hid
      simp only [XElem.typeAttr, XElem.typeChild, XElem.attributesNodes]
      rw [processElement, hnm, hid]
      dsimp only
      obtain ⟨t, ht⟩ := extends_chain_cons (extractER_extends children _ _ _)
        (processGroups_extends groups _ _ _) rfl
      rw [ht, take_append_cons]
  · intro g rest acc cp pid gnm gid hnm hid
    cases g with
    | mk gnm' gidC gelems =>
      simp only [XGroup.name, XGroup.idChild] at hnm hid
      rw [processGroups, hnm, hid]
      dsimp only
      obtain ⟨t1, h1⟩ := extractER_extends gelems
        (acc ++ [{ id := gid, name := gnm, type := "group", parentId := some pid,
                   path := cp ++ " - " ++ gnm, attributes := none }]) (cp ++ " - " ++ gnm) (some gid)
      obtain ⟨t2, h2⟩ := processGroups_extends rest _ cp pid
      obtain ⟨t, ht⟩ := extends_chain_cons ⟨t1, h1⟩ ⟨t2, h2⟩ rfl
      rw [ht, take_append_cons]

/-- Claim C8, witness at concrete nodes. -/
theorem c8_skip_and_emit_witness :
    processElement eNoName [] "" none = [] ∧
    processGroups [gNoId] [] "P" "p0" = processGroups [] [] "P" "p0" ∧
    (processElement eGood [] "Parent" (some "p0")).take 1 =
      [{ id := "id-1", name := "Window", type := "element", parentId := some "p0",
         path := "Parent - Window", attributes := none }] ∧
    (processGroups [gGood] [] "Parent" "p0").take 1 =
      [{ id := "id-2", name := "Tab", type := "group", parentId := some "p0",
         path := "Parent - Tab", attributes := none }] :=
  ⟨c8_skip_and_emit.1 eNoName [] "" none (Or.inl rfl),
   c8_skip_and_emit.2.1 gNoId [] [] "P" "p0" (Or.inr rfl),
   c8_skip_and_emit.2.2.1 eGood [] "Parent" (some "p0") "Window" "id-1" rfl rfl,
   c8_skip_and_emit.2.2.2 gGood [] [] "Parent" "p0" "Tab" "id-2" rfl rfl⟩

/-- Claim C7, counterexample: a single element whose `parentId` refers to
an id not present in the list is dropped by `buildElementTree` — it is
neither a root nor anyone's child, so the depth-first flattening is empty
and does not contain the original element's id. -/
theorem c7_counterexample :
    flattenTree esDangling = [] ∧
    esDangling.map (fun e => e.id) = ["1"] ∧
    (buildLink esDangling).1 = [] ∧
    (buildLink esDangling).2 "x" = [] := by
  refine ⟨rfl, rfl, rfl, rfl⟩

theorem buildLink_aux (es : List VBOElement) (l : List VBOElement)
    (r0 : List String) (c0 : String → List String) :
    (l.foldl (linkStep es) (r0, c0)).1 =
      r0 ++ (l.filter (fun e => !truthyStr e.parentId)).map (fun e => e.id) ∧
    ∀ i, (l.foldl (linkStep es) (r0, c0)).2 i =
      c0 i ++ (l.filter (fun e => (jsVal e.parentId == some i) && hasElemId es i)).map (fun e => e.id) := by
  induction l generalizing r0 c0 with
  | nil => exact ⟨by simp, fun i => by simp⟩
  | cons e l ih =>
    simp only [List.foldl_cons]
    match he : e.parentId with
    | none =>
      have step : linkStep es (r0, c0) e = (r0 ++ [e.id], c0) := by
        unfold linkStep
        rw [he]
      rw [step]
      obtain ⟨ih1, ih2⟩ := ih (r0 ++ [e.id]) c0
      constructor
      · rw [ih1, List.filter_cons_of_pos (by simp [truthyStr, he]), List.map_cons, List.append_assoc]
        rfl
      · intro i
        rw [ih2 i, List.filter_cons_of_neg (by simp [jsVal, he])]
    | some p =>
      by_cases hp : p = ""
      · subst hp
        have step : linkStep es (r0, c0) e = (r0 ++ [e.id], c0) := by
          unfold linkStep
          rw [he]
          simp
        rw [step]
        obtain ⟨ih1, ih2⟩ := ih (r0 ++ [e.id]) c0
        constructor
        · rw [ih1, List.filter_cons_of_pos (by simp [truthyStr, he]), List.map_cons, List.append_assoc]
          rfl
        · intro i
          rw [ih2 i, List.filter_cons_of_neg (by simp [jsVal, he])]
      · by_cases hh : hasElemId es p = true
        · have step : linkStep es (r0, c0) e =
              (r0, fun i => if i == p then c0 i ++ [e.id] else c0 i) := by
            unfold linkStep
            rw [he]
            simp [hp, hh]
          rw [step]
          obtain ⟨ih1, ih2⟩ := ih r0 (fun i => if i == p then c0 i ++ [e.id] else c0 i)
          constructor
          · rw [ih1, List.filter_cons_of_neg (by simp [truthyStr, he, hp])]
          · intro i
            rw [ih2 i]
            by_cases hip : i = p
            · subst hip
              rw [List.filter_cons_of_pos (by simp [jsVal, he, hp, hh]), List.map_cons]
              simp
            · rw [List.filter_cons_of_neg (by simp [jsVal, he, hp, Ne.symm hip])]
              simp [hip]
        · have step : linkStep es (r0, c0) e = (r0, c0) := by
            unfold linkStep
            rw [he]
            simp [hp, hh]
          rw [step]
          obtain ⟨ih1, ih2⟩ := ih r0 c0
          constructor
          · rw [ih1, List.filter_cons_of_neg (by simp [truthyStr, he, hp])]
          · intro i
            rw [ih2 i]
            by_cases hip : i = p
            · subst hip
              rw [List.filter_cons_of_neg (by simp [jsVal, he, hp, hh])]
            · rw [List.filter_cons_of_neg (by simp [jsVal, he, hp, Ne.symm hip])]

theorem buildLink_fst (es : List VBOElement) :
    (buildLink es).1 = (es.filter (fun e => !truthyStr e.parentId)).map (fun e => e.id) := by
  have h := (buildLink_aux es es [] (fun _ => [])).1
  simpa [buildLink] using h

theorem buildLink_snd (es : List VBOElement) (i : String) :
    (buildLink es).2 i =
      (es.filter (fun e => (jsVal e.parentId == some i) && hasElemId es i)).map (fun e => e.id) := by
  have h := (buildLink_aux es es [] (fun _ => [])).2 i
  simpa [buildLink] using h

theorem find_id_of_nodup {es : List VBOElement} (hn : (es.map (fun e => e.id)).Nodup)
    {e : VBOElement} (he : e ∈ es) :
    es.find? (fun x => x.id == e.id) = some e := by
  induction es with
  | nil => simp at he
  | cons hd tl ih =>
    rcases List.mem_cons.mp he with rfl | he
    · rw [List.find?_cons_of_pos _ (by simp)]
    · have hne : hd.id ≠ e.id := by
        intro hcontra
        have : e.id ∈ tl.map (fun e => e.id) := List.mem_map_of_mem _ he
        rw [List.map_cons, List.nodup_cons] at hn
        exact hn.1 (hcontra ▸ this)
      rw [List.find?_cons_of_neg _ (by simp [hne])]
      rw [List.map_cons, List.nodup_cons] at hn
      exact ih hn.2 he

theorem parentOf_eq {es : List VBOElement} (hn : (es.map (fun e => e.id)).Nodup)
    {e : VBOElement} (he : e ∈ es) :
    parentOf es e.id = jsVal e.parentId := by
  unfold parentOf
  rw [find_id_of_nodup hn he]

theorem parentOf_none_of_not_mem {es : List VBOElement} {t : String}
    (ht : t ∉ es.map (fun e => e.id)) :
    parentOf es t = none := by
  unfold parentOf
  have : es.find? (fun e => e.id == t) = none := by
    rw [List.find?_eq_none]
    intro e he
    simp only [beq_iff_eq]
    intro hcontra
    exact ht (hcontra ▸ List.mem_map_of_mem _ he)
  rw [this]

theorem jsVal_eq_some {o : Option String} {p : String} (h : jsVal o = some p) :
    o = some p ∧ p ≠ "" := by
  match o with
  | none => simp [jsVal] at h
  | some s =>
    by_cases hs : s = ""
    · subst hs
      simp [jsVal] at h
    · have hv : jsVal (some s) = some s := by simp [jsVal, hs]
      rw [hv] at h
      cases h
      exact ⟨rfl, hs⟩

theorem parentOf_mem {es : List VBOElement} (hp : ParentsClosed es) {t p : String}
    (h : parentOf es t = some p) : p ∈ es.map (fun e => e.id) := by
  unfold parentOf at h
  match hf : es.find? (fun e => e.id == t) with
  | none => rw [hf] at h; cases h
  | some e =>
    rw [hf] at h
    have he : e ∈ es := List.mem_of_find?_eq_some hf
    obtain ⟨hpe, -⟩ := jsVal_eq_some h
    exact (hp e he p hpe).2

theorem parentOf_rank {es : List VBOElement} {rank : String → Nat}
    (hr : RankedParents es rank) {t p : String}
    (h : parentOf es t = some p) : rank p < rank t := by
  unfold parentOf at h
  match hf : es.find? (fun e => e.id == t) with
  | none => rw [hf] at h; cases h
  | some e =>
    rw [hf] at h
    have he : e ∈ es := List.mem_of_find?_eq_some hf
    have hid : e.id = t := by simpa using List.find?_some hf
    obtain ⟨hpe, -⟩ := jsVal_eq_some h
    exact hid ▸ hr e he p hpe

theorem iterPar_succ (es : List VBOElement) (k : Nat) (t : String) :
    iterPar es (k + 1) t = (iterPar es k t).bind (parentOf es) := by
  induction k generalizing t with
  | zero =>
    cases hpt : parentOf es t <;> simp [iterPar, hpt, Option.bind]
  | succ k ih =>
    cases hpt : parentOf es t with
    | some p =>
      have l1 : iterPar es (k + 1 + 1) t = iterPar es (k + 1) p := by rw [iterPar, hpt]
      have l2 : iterPar es (k + 1) t = iterPar es k p := by rw [iterPar, hpt]
      rw [l1, l2]
      exact ih p
    | none =>
      have l1 : iterPar es (k + 1 + 1) t = none := by rw [iterPar, hpt]
      have l2 : iterPar es (k + 1) t = none := by rw [iterPar, hpt]
      rw [l1, l2]
      rfl

theorem iterPar_none_steps {es : List VBOElement} {k : Nat} {t : String}
    (h : iterPar es k t = none) (j : Nat) : iterPar es (k + j) t = none := by
  induction j with
  | zero => exact h
  | succ j ih => rw [← Nat.add_assoc, iterPar_succ, ih]; rfl

theorem iterPar_rank_lt {es : List VBOElement} {rank : String → Nat}
    (hr : RankedParents es rank) {k : Nat} {t a : String}
    (ha : iterPar es k t = some a) {d : Nat} {b : String}
    (hb : iterPar es (k + d + 1) t = some b) : rank b < rank a := by
  induction d generalizing b with
  | zero =>
    rw [iterPar_succ, ha] at hb
    exact parentOf_rank hr hb
  | succ d ih =>
    rw [show k + (d + 1) + 1 = (k + d + 1) + 1 from by omega, iterPar_succ] at hb
    match hc : iterPar es (k + d + 1) t with
    | none => rw [hc] at hb; cases hb
    | some c =>
      rw [hc] at hb
      exact lt_trans (parentOf_rank hr hb) (ih hc)

theorem iterPar_inj {es : List VBOElement} {rank : String → Nat}
    (hr : RankedParents es rank) {k k' : Nat} {t a : String}
    (h : iterPar es k t = some a) (h' : iterPar es k' t = some a) : k = k' := by
  rcases Nat.lt_trichotomy k k' with hlt | heq | hgt
  · exfalso
    have : k' = k + (k' - k - 1) + 1 := by omega
    rw [this] at h'
    exact lt_irrefl _ (iterPar_rank_lt hr h h')
  · exact heq
  · exfalso
    have : k = k' + (k - k' - 1) + 1 := by omega
    rw [this] at h
    exact lt_irrefl _ (iterPar_rank_lt hr h' h)

theorem iterPar_mem {es : List VBOElement} (hp : ParentsClosed es) {k : Nat} {t a : String}
    (ht : t ∈ es.map (fun e => e.id)) (h : iterPar es k t = some a) :
    a ∈ es.map (fun e => e.id) := by
  induction k generalizing t with
  | zero => unfold iterPar at h; cases h; exact ht
  | succ k ih =>
    rw [iterPar] at h
    match hpt : parentOf es t with
    | none => rw [hpt] at h; cases h
    | some p =>
      rw [hpt] at h
      exact ih (parentOf_mem hp hpt) h

theorem reach_root {es : List VBOElement} {rank : String → Nat}
    (hp : ParentsClosed es) (hr : RankedParents es rank) :
    ∀ t ∈ es.map (fun e => e.id),
      ∃ k r, iterPar es k t = some r ∧ parentOf es r = none ∧ r ∈ es.map (fun e => e.id) := by
  suffices H : ∀ n t, t ∈ es.map (fun e => e.id) → rank t < n →
      ∃ k r, iterPar es k t = some r ∧ parentOf es r = none ∧ r ∈ es.map (fun e => e.id) by
    intro t ht
    exact H (rank t + 1) t ht (by omega)
  intro n
  induction n with
  | zero => intro t ht h; omega
  | succ n ih =>
    intro t ht hlt
    match hpt : parentOf es t with
    | none => exact ⟨0, t, rfl, hpt, ht⟩
    | some p =>
      have hpm : p ∈ es.map (fun e => e.id) := parentOf_mem hp hpt
      have hplt : rank p < n := by
        have := parentOf_rank hr hpt
        omega
      obtain ⟨k, r, hk, hroot, hrm⟩ := ih p hpm hplt
      refine ⟨k + 1, r, ?_, hroot, hrm⟩
      rw [iterPar, hpt]
      exact hk

theorem iterPar_all_some {es : List VBOElement} {k : Nat} {t a : String}
    (h : iterPar es k t = some a) {j : Nat} (hj : j ≤ k) :
    ∃ b, iterPar es j t = some b := by
  match hc : iterPar es j t with
  | some b => exact ⟨b, rfl⟩
  | none =>
    exfalso
    have := iterPar_none_steps hc (k - j)
    rw [show j + (k - j) = k from by omega] at this
    rw [this] at h
    cases h

theorem iterPar_bound {es : List VBOElement} {rank : String → Nat}
    (hp : ParentsClosed es)
    (hr : RankedParents es rank) {k : Nat} {t a : String}
    (ht : t ∈ es.map (fun e => e.id)) (h : iterPar es k t = some a) :
    k < es.length := by
  classical
  set L := (List.range (k + 1)).map (fun j => (iterPar es j t).getD "") with hL
  have hsome : ∀ j ∈ List.range (k + 1), ∃ b, iterPar es j t = some b := by
    intro j hj
    exact iterPar_all_some h (by simpa using Nat.lt_succ_iff.mp (List.mem_range.mp hj))
  have hnodup : L.Nodup := by
    refine List.Nodup.map_on ?_ (List.nodup_range _)
    intro x hx y hy hxy
    obtain ⟨bx, hbx⟩ := hsome x hx
    obtain ⟨by_, hby⟩ := hsome y hy
    rw [hbx, hby] at hxy
    simp only [Option.getD_some] at hxy
    subst hxy
    exact iterPar_inj hr hbx hby
  have hsub : L ⊆ es.map (fun e => e.id) := by
    intro x hx
    rw [hL] at hx
    rcases List.mem_map.mp hx with ⟨j, hj, rfl⟩
    obtain ⟨b, hb⟩ := hsome j hj
    rw [hb]
    simpa using iterPar_mem hp ht hb
  have hlen : L.length ≤ (es.map (fun e => e.id)).length := (hnodup.subperm hsub).length_le
  rw [hL] at hlen
  simp only [List.length_map, List.length_range] at hlen
  omega

theorem hasElemId_iff (es : List VBOElement) (i : String) :
    hasElemId es i = true ↔ i ∈ es.map (fun e => e.id) := by
  unfold hasElemId
  rw [List.any_eq_true]
  constructor
  · rintro ⟨e, he, hbe⟩
    simp only [beq_iff_eq] at hbe
    exact hbe ▸ List.mem_map_of_mem _ he
  · intro h
    rcases List.mem_map.mp h with ⟨e, he, rfl⟩
    exact ⟨e, he, by simp⟩

theorem mem_childrenOf_iff {es : List VBOElement} {i c : String} :
    c ∈ childrenOf es i ↔
      ∃ e ∈ es, e.id = c ∧ jsVal e.parentId = some i ∧ hasElemId es i = true := by
  unfold childrenOf
  rw [buildLink_snd]
  simp only [List.mem_map, List.mem_filter, Bool.and_eq_true, beq_iff_eq]
  constructor
  · rintro ⟨e, ⟨⟨he, hpe, hh⟩, rfl⟩⟩
    exact ⟨e, he, rfl, hpe, hh⟩
  · rintro ⟨e, he, rfl, hpe, hh⟩
    exact ⟨e, ⟨he, hpe, hh⟩, rfl⟩

theorem childrenOf_nodup {es : List VBOElement}
    (hn : (es.map (fun e => e.id)).Nodup) (i : String) :
    (childrenOf es i).Nodup := by
  unfold childrenOf
  rw [buildLink_snd]
  exact hn.sublist ((List.filter_sublist es).map _)

theorem childrenOf_mem_ids {es : List VBOElement} {i c : String}
    (h : c ∈ childrenOf es i) : c ∈ es.map (fun e => e.id) := by
  rcases mem_childrenOf_iff.mp h with ⟨e, he, rfl, -, -⟩
  exact List.mem_map_of_mem _ he

theorem childrenOf_parentOf {es : List VBOElement}
    (hn : (es.map (fun e => e.id)).Nodup) {i c : String}
    (h : c ∈ childrenOf es i) : parentOf es c = some i := by
  rcases mem_childrenOf_iff.mp h with ⟨e, he, rfl, hpe, -⟩
  rw [parentOf_eq hn he, hpe]

theorem mem_childrenOf_of {es : List VBOElement} {e : VBOElement} {i : String}
    (he : e ∈ es) (hpe : jsVal e.parentId = some i)
    (hi : i ∈ es.map (fun e => e.id)) : e.id ∈ childrenOf es i :=
  mem_childrenOf_iff.mpr ⟨e, he, rfl, hpe, (hasElemId_iff es i).mpr hi⟩

theorem parentOf_some_of_mem_ids {es : List VBOElement}
    (hn : (es.map (fun e => e.id)).Nodup) {c i : String}
    (hc : c ∈ es.map (fun e => e.id)) (h : parentOf es c = some i)
    (hi : i ∈ es.map (fun e => e.id)) : c ∈ childrenOf es i := by
  rcases List.mem_map.mp hc with ⟨e, he, rfl⟩
  rw [parentOf_eq hn he] at h
  exact mem_childrenOf_of he h hi

section CountLemmas

open Classical

theorem sum_ite_unique (l : List String) (P : String → Prop) [DecidablePred P] (hl : l.Nodup)
    (huniq : ∀ x ∈ l, ∀ y ∈ l, P x → P y → x = y) :
    (l.map (fun c => if P c then 1 else 0)).sum = if ∃ c ∈ l, P c then 1 else 0 := by
  induction l with
  | nil => simp
  | cons a l ih =>
    rw [List.map_cons, List.sum_cons]
    rw [List.nodup_cons] at hl
    by_cases hPa : P a
    · rw [if_pos hPa, if_pos ⟨a, by simp, hPa⟩]
      have hz : (l.map (fun c => if P c then 1 else 0)).sum = 0 := by
        refine List.sum_eq_zero ?_
        intro x hx
        rcases List.mem_map.mp hx with ⟨c, hc, rfl⟩
        rw [if_neg]
        intro hPc
        exact hl.1 (huniq c (by simp [hc]) a (by simp) hPc hPa ▸ hc)
      omega
    · rw [if_neg hPa, ih hl.2 (fun x hx y hy => huniq x (by simp [hx]) y (by simp [hy]))]
      have hiff : (∃ c ∈ l, P c) ↔ (∃ c ∈ a :: l, P c) := by
        constructor
        · rintro ⟨c, hc, hPc⟩
          exact ⟨c, by simp [hc], hPc⟩
        · rintro ⟨c, hc, hPc⟩
          rcases List.mem_cons.mp hc with rfl | hc
          · exact absurd hPc hPa
          · exact ⟨c, hc, hPc⟩
      rw [if_congr hiff rfl rfl]
      omega

theorem count_dfsNode {es : List VBOElement} {rank : String → Nat}
    (hn : (es.map (fun e => e.id)).Nodup) (hp : ParentsClosed es)
    (hr : RankedParents es rank) :
    ∀ (n : Nat) (i : String), i ∈ es.map (fun e => e.id) → ∀ t : String,
      (dfsNode (childrenOf es) n i).count t =
        if ∃ k ≤ n, iterPar es k t = some i then 1 else 0 := by
  intro n
  induction n with
  | zero =>
    intro i hi t
    have hcond : (∃ k ≤ 0, iterPar es k t = some i) ↔ t = i := by
      constructor
      · rintro ⟨k, hk, hit⟩
        interval_cases k
        unfold iterPar at hit
        cases hit
        rfl
      · rintro rfl
        exact ⟨0, le_refl _, rfl⟩
    rw [if_congr hcond rfl rfl]
    simp only [dfsNode]
    by_cases ht : t = i
    · subst ht
      rw [if_pos rfl]
      simp
    · rw [if_neg ht]
      simp [List.count_cons, Ne.symm ht, ht]
  | succ n ih =>
    intro i hi t
    have hcount : (dfsNode (childrenOf es) (n + 1) i).count t =
        ((childrenOf es i).map (fun c => (dfsNode (childrenOf es) n c).count t)).sum +
          (if i == t then 1 else 0) := by
      simp only [dfsNode, List.count_cons, List.count_flatten, List.map_map]
      rfl
    rw [hcount]
    have hmapeq : (childrenOf es i).map (fun c => (dfsNode (childrenOf es) n c).count t) =
        (childrenOf es i).map (fun c => if ∃ k ≤ n, iterPar es k t = some c then 1 else 0) := by
      refine List.map_congr_left ?_
      intro c hc
      exact ih c (childrenOf_mem_ids hc) t
    rw [hmapeq]
    rw [sum_ite_unique (childrenOf es i) (fun c => ∃ k ≤ n, iterPar es k t = some c)
      (childrenOf_nodup hn i) ?uniq]
    case uniq =>
      rintro x hx y hy ⟨kx, hkx, hx'⟩ ⟨ky, hky, hy'⟩
      have hpx : parentOf es x = some i := childrenOf_parentOf hn hx
      have hpy : parentOf es y = some i := childrenOf_parentOf hn hy
      have hx1 : iterPar es (kx + 1) t = some i := by
        rw [iterPar_succ, hx']
        exact hpx
      have hy1 : iterPar es (ky + 1) t = some i := by
        rw [iterPar_succ, hy']
        exact hpy
      have hk : kx + 1 = ky + 1 := iterPar_inj hr hx1 hy1
      have hkxy : kx = ky := by omega
      subst hkxy
      rw [hx'] at hy'
      cases hy'
      rfl
    by_cases hti : t = i
    · subst hti
      have hnone : ¬∃ c ∈ childrenOf es t, ∃ k ≤ n, iterPar es k t = some c := by
        rintro ⟨c, hc, k, hk, hkc⟩
        have hpc : parentOf es c = some t := childrenOf_parentOf hn hc
        have h1 : iterPar es (k + 1) t = some t := by
          rw [iterPar_succ, hkc]
          exact hpc
        have h0 : iterPar es 0 t = some t := rfl
        have : k + 1 = 0 := iterPar_inj hr h1 h0
        omega
      rw [if_neg hnone]
      rw [if_pos (show ∃ k ≤ n + 1, iterPar es k t = some t from ⟨0, by omega, rfl⟩)]
      simp
    · have hbe : (i == t) = false := by
        simp only [beq_eq_false_iff_ne]
        exact fun h => hti h.symm
      rw [hbe]
      have hiff : (∃ c ∈ childrenOf es i, ∃ k ≤ n, iterPar es k t = some c) ↔
          (∃ k ≤ n + 1, iterPar es k t = some i) := by
        constructor
        · rintro ⟨c, hc, k, hk, hkc⟩
          refine ⟨k + 1, by omega, ?_⟩
          rw [iterPar_succ, hkc]
          exact childrenOf_parentOf hn hc
        · rintro ⟨k, hk, hki⟩
          by_cases htm : t ∈ es.map (fun e => e.id)
          · match k with
            | 0 =>
              exfalso
              unfold iterPar at hki
              cases hki
              exact hti rfl
            | k' + 1 =>
              rw [iterPar_succ] at hki
              match hc' : iterPar es k' t with
              | none =>
                rw [hc'] at hki
                cases hki
              | some c =>
                rw [hc'] at hki
                simp only [Option.some_bind] at hki
                have hcm : c ∈ es.map (fun e => e.id) := iterPar_mem hp htm hc'
                exact ⟨c, parentOf_some_of_mem_ids hn hcm hki hi, k', by omega, hc'⟩
          · exfalso
            have hpt : parentOf es t = none := parentOf_none_of_not_mem htm
            match k with
            | 0 =>
              unfold iterPar at hki
              cases hki
              exact hti rfl
            | k' + 1 =>
              rw [iterPar] at hki
              rw [hpt] at hki
              cases hki
      rw [if_congr hiff rfl rfl]
      simp

end CountLemmas

theorem truthyStr_false_iff (o : Option String) : truthyStr o = false ↔ jsVal o = none := by
  match o with
  | none => simp [truthyStr, jsVal]
  | some s =>
    by_cases hs : s = ""
    · subst hs
      simp [truthyStr, jsVal]
    · simp [truthyStr, jsVal, hs]

theorem roots_nodup {es : List VBOElement} (hn : (es.map (fun e => e.id)).Nodup) :
    (buildLink es).1.Nodup := by
  rw [buildLink_fst]
  exact hn.sublist ((List.filter_sublist es).map _)

theorem roots_mem_ids {es : List VBOElement} {r : String}
    (h : r ∈ (buildLink es).1) : r ∈ es.map (fun e => e.id) := by
  rw [buildLink_fst] at h
  rcases List.mem_map.mp h with ⟨e, he, rfl⟩
  exact List.mem_map_of_mem _ (List.mem_of_mem_filter he)

theorem roots_parentOf {es : List VBOElement} (hn : (es.map (fun e => e.id)).Nodup)
    {r : String} (h : r ∈ (buildLink es).1) : parentOf es r = none := by
  rw [buildLink_fst] at h
  rcases List.mem_map.mp h with ⟨e, he, rfl⟩
  have hf := List.of_mem_filter he
  simp only [Bool.not_eq_true'] at hf
  rw [parentOf_eq hn (List.mem_of_mem_filter he)]
  exact (truthyStr_false_iff e.parentId).mp hf

theorem mem_roots_of {es : List VBOElement} (hn : (es.map (fun e => e.id)).Nodup)
    {t : String} (ht : t ∈ es.map (fun e => e.id)) (h : parentOf es t = none) :
    t ∈ (buildLink es).1 := by
  rw [buildLink_fst]
  rcases List.mem_map.mp ht with ⟨e, he, rfl⟩
  rw [parentOf_eq hn he] at h
  refine List.mem_map_of_mem _ (List.mem_filter.mpr ⟨he, ?_⟩)
  simp only [Bool.not_eq_true']
  exact (truthyStr_false_iff e.parentId).mpr h

section FlattenCount

open Classical

theorem count_flattenTree {es : List VBOElement} {rank : String → Nat}
    (hn : (es.map (fun e => e.id)).Nodup) (hp : ParentsClosed es)
    (hr : RankedParents es rank) (t : String) :
    (flattenTree es).count t = (es.map (fun e => e.id)).count t := by
  unfold flattenTree
  rw [List.count_flatten, List.map_map]
  have hmapeq : (buildLink es).1.map (List.count t ∘ dfsNode (buildLink es).2 es.length) =
      (buildLink es).1.map
        (fun r => if ∃ k ≤ es.length, iterPar es k t = some r then 1 else 0) := by
    refine List.map_congr_left ?_
    intro r hrm
    exact count_dfsNode hn hp hr es.length r (roots_mem_ids hrm) t
  rw [hmapeq]
  rw [sum_ite_unique (buildLink es).1 (fun r => ∃ k ≤ es.length, iterPar es k t = some r)
    (roots_nodup hn) ?uniq]
  case uniq =>
    rintro x hx y hy ⟨kx, hkx, hx'⟩ ⟨ky, hky, hy'⟩
    have hpx : parentOf es x = none := roots_parentOf hn hx
    have hpy : parentOf es y = none := roots_parentOf hn hy
    rcases Nat.lt_trichotomy kx ky with hlt | heq | hgt
    · exfalso
      have hxn : iterPar es (kx + 1) t = none := by
        rw [iterPar_succ, hx']
        exact hpx
      have := iterPar_none_steps hxn (ky - kx - 1)
      rw [show kx + 1 + (ky - kx - 1) = ky from by omega] at this
      rw [this] at hy'
      cases hy'
    · subst heq
      rw [hx'] at hy'
      cases hy'
      rfl
    · exfalso
      have hyn : iterPar es (ky + 1) t = none := by
        rw [iterPar_succ, hy']
        exact hpy
      have := iterPar_none_steps hyn (kx - ky - 1)
      rw [show ky + 1 + (kx - ky - 1) = kx from by omega] at this
      rw [this] at hx'
      cases hx'
  by_cases htm : t ∈ es.map (fun e => e.id)
  · rw [List.count_eq_one_of_mem hn htm]
    obtain ⟨k, r, hk, hroot, hrm⟩ := reach_root hp hr t htm
    have hbound : k < es.length := iterPar_bound hp hr htm hk
    rw [if_pos ⟨r, mem_roots_of hn hrm hroot, k, by omega, hk⟩]
  · rw [List.count_eq_zero.mpr htm]
    rw [if_neg]
    rintro ⟨r, hrm, k, hk, hkr⟩
    match k with
    | 0 =>
      unfold iterPar at hkr
      cases hkr
      exact htm (roots_mem_ids hrm)
    | k' + 1 =>
      have hpt : parentOf es t = none := parentOf_none_of_not_mem htm
      rw [iterPar, hpt] at hkr
      cases hkr

end FlattenCount

/-- Claim C7, amended: under the well-formedness the counterexample
forces (pairwise-distinct ids, every parent reference non-empty and
present in the list, and acyclic parent references witnessed by a rank
function), flattening the reconstructed tree depth-first yields exactly
the original elements' ids (as a permutation), every element with a
parent reference is linked as a child of that node, and every element
without one is a root — in whatever order the flat list presents the
elements. -/
theorem c7_amended (es : List VBOElement) (rank : String → Nat)
    (hn : (es.map (fun e => e.id)).Nodup)
    (hp : ParentsClosed es) (hr : RankedParents es rank) :
    (flattenTree es).Perm (es.map (fun e => e.id)) ∧
    (∀ e ∈ es, ∀ p, e.parentId = some p → e.id ∈ (buildLink es).2 p) ∧
    (∀ e ∈ es, e.parentId = none → e.id ∈ (buildLink es).1) := by
  refine ⟨?_, ?_, ?_⟩
  · exact List.perm_iff_count.mpr (fun t => count_flattenTree hn hp hr t)
  · intro e he p hpe
    obtain ⟨hne, hmem⟩ := hp e he p hpe
    have hjs : jsVal e.parentId = some p := by
      rw [hpe]
      simp [jsVal, hne]
    exact mem_childrenOf_of he hjs hmem
  · intro e he hpe
    refine mem_roots_of hn (List.mem_map_of_mem _ he) ?_
    rw [parentOf_eq hn he, hpe]
    rfl

theorem esD_closed : ParentsClosed esD := by
  intro e he p hpe
  rcases List.mem_cons.mp he with rfl | he
  · cases hpe
  · rcases List.mem_cons.mp he with rfl | he
    · cases hpe
      exact ⟨by decide, by decide⟩
    · simp at he

theorem esD_ranked : RankedParents esD rankD := by
  intro e he p hpe
  rcases List.mem_cons.mp he with rfl | he
  · cases hpe
  · rcases List.mem_cons.mp he with rfl | he
    · cases hpe
      decide
    · simp at he

theorem esDRev_closed : ParentsClosed esDRev := by
  intro e he p hpe
  rcases List.mem_cons.mp he with rfl | he
  · cases hpe
    exact ⟨by decide, by decide⟩
  · rcases List.mem_cons.mp he with rfl | he
    · cases hpe
    · simp at he

theorem esDRev_ranked : RankedParents esDRev rankD := by
  intro e he p hpe
  rcases List.mem_cons.mp he with rfl | he
  · cases hpe
    decide
  · rcases List.mem_cons.mp he with rfl | he
    · cases hpe
    · simp at he

/-- Claim C7, amended, witness at the Scenario D list in both orders:
one root "Root" (id 1) with one child "Child" (id 2). -/
theorem c7_amended_witness :
    (flattenTree esD).Perm (esD.map (fun e => e.id)) ∧
    (flattenTree esDRev).Perm (esDRev.map (fun e => e.id)) ∧
    flattenTree esD = ["1", "2"] ∧
    flattenTree esDRev = ["1", "2"] ∧
    (buildLink esD).1 = ["1"] ∧ (buildLink esD).2 "1" = ["2"] ∧
    (buildLink esDRev).1 = ["1"] ∧ (buildLink esDRev).2 "1" = ["2"] :=
  ⟨(c7_amended esD rankD (by decide) esD_closed esD_ranked).1,
   (c7_amended esDRev rankD (by decide) esDRev_closed esDRev_ranked).1,
   rfl, rfl, rfl, rfl, rfl, rfl⟩

end BPA
